import Mathlib

/-!
Shallow embedding of the High-Performance-KV-Store LRU engine
(`src/lru_cache.cpp`, `src/kvstore.h`) and its façade (`KVStore`).

Modelling conventions:
* Keys and values are byte strings, modelled as `List Nat`.
* A `Node` of the recency list is identified by a unique allocation id
  (`nextId` plays the role of the allocator); the recency list is the
  list of `(id, Node)` pairs in head→tail order, sentinels omitted.
* `cache_map` (the index) is an association list `Key → id` with
  `std::unordered_map` semantics (unique keys, overwrite on `operator[]`).
* The snapshot stream is a `List Nat` of bytes.  `std::ifstream` reads are
  modelled by a reader state with a sticky fail bit; a failed 4-byte read
  leaves the destination indeterminate in C++, which the model captures by
  an oracle `junk : Nat → Nat` consulted at the i-th failed u32 read.
  A failed byte-string read yields the bytes that were available padded
  with NUL, exactly as `std::string(n, 0)` partially overwritten.
* The monotonic clock is an explicit `now : Nat` argument.
-/

namespace KVS

abbrev Key := List Nat

abbrev Val := List Nat

/-- `CacheEntry` together with the `Node` that owns it
(`key`, `entry->value`, `entry->last_accessed`, `entry->access_count`). -/
structure Node where
  key : Key
  value : Val
  lastAccessed : Nat
  accessCount : Nat
  deriving Repr, DecidableEq

/-- The `LRUCache` state: capacity, allocator counter, recency list in
head→tail order (sentinels omitted), index (`cache_map`), `current_size`. -/
structure LRUCache where
  capacity : Nat
  nextId : Nat
  nodes : List (Nat × Node)
  index : List (Key × Nat)
  currentSize : Nat
  deriving Repr

/-- `LRUCache::LRUCache(cap)` after the `capacity == 0` guard passed. -/
def mkCache (cap : Nat) : LRUCache :=
  { capacity := cap, nextId := 0, nodes := [], index := [], currentSize := 0 }

/-- `cache_map.find` on the association-list model. -/
def mapFind : List (Key × Nat) → Key → Option Nat
  | [], _ => none
  | (k', v) :: m, k => if k = k' then some v else mapFind m k

/-- `cache_map[k] = v` (overwrite if present, insert otherwise). -/
def mapInsert : List (Key × Nat) → Key → Nat → List (Key × Nat)
  | [], k, v => [(k, v)]
  | (k', v') :: m, k, v =>
      if k = k' then (k, v) :: m else (k', v') :: mapInsert m k v

/-- `cache_map.erase(k)`. -/
def mapErase : List (Key × Nat) → Key → List (Key × Nat)
  | [], _ => []
  | (k', v') :: m, k => if k = k' then m else (k', v') :: mapErase m k

/-- Dereference a node handle: find the node with the given id. -/
def findId : List (Nat × Node) → Nat → Option Node
  | [], _ => none
  | (i, n) :: l, id => if id = i then some n else findId l id

/-- `remove_node`: unlink the node with the given id from the list.
Ids are allocated freshly, so at most one node carries a given id. -/
def removeId (l : List (Nat × Node)) (id : Nat) : List (Nat × Node) :=
  l.filter (fun p => p.1 ≠ id)

namespace LRUCache

/-- `LRUCache::get`.  Returns `(found, value, new state)`.  On a hit the
entry's metadata is refreshed and the node is spliced to the head
(`move_to_front`).  The inner `none` branch is unreachable in sequential
executions: the C++ code dereferences the index iterator unconditionally,
and every index entry references a live node. -/
def get (e : LRUCache) (k : Key) (now : Nat) : Bool × Val × LRUCache :=
  match mapFind e.index k with
  | none => (false, [], e)
  | some id =>
    match findId e.nodes id with
    | none => (true, [], e)
    | some n =>
      let n' : Node :=
        { n with lastAccessed := now, accessCount := n.accessCount + 1 }
      (true, n'.value, { e with nodes := (id, n') :: removeId e.nodes id })

/-- `LRUCache::put`.  Existing key: overwrite value, refresh metadata,
splice to head.  Absent key: if `current_size >= capacity`, pop the tail
(`remove_tail`), erase its key from the index and decrement the size;
then insert the new node at the head. -/
def put (e : LRUCache) (k : Key) (v : Val) (now : Nat) : LRUCache :=
  match mapFind e.index k with
  | some id =>
    match findId e.nodes id with
    | none => e
    | some n =>
      let n' : Node :=
        { n with value := v, lastAccessed := now, accessCount := n.accessCount + 1 }
      { e with nodes := (id, n') :: removeId e.nodes id }
  | none =>
    let e1 :=
      if e.capacity ≤ e.currentSize then
        match e.nodes.getLast? with
        | some p =>
          { e with nodes := removeId e.nodes p.1,
                   index := mapErase e.index p.2.key,
                   currentSize := e.currentSize - 1 }
        | none => e
      else e
    { e1 with nodes := (e1.nextId, Node.mk k v now 1) :: e1.nodes,
              index := mapInsert e1.index k e1.nextId,
              nextId := e1.nextId + 1,
              currentSize := e1.currentSize + 1 }

/-- `LRUCache::remove`. -/
def removeKey (e : LRUCache) (k : Key) : Bool × LRUCache :=
  match mapFind e.index k with
  | none => (false, e)
  | some id =>
    (true, { e with nodes := removeId e.nodes id,
                    index := mapErase e.index k,
                    currentSize := e.currentSize - 1 })

/-- `LRUCache::clear`. -/
def clear (e : LRUCache) : LRUCache :=
  { e with nodes := [], index := [], currentSize := 0 }

/-- `LRUCache::size`. -/
def size (e : LRUCache) : Nat := e.currentSize

/-- `LRUCache::empty`. -/
def isEmpty (e : LRUCache) : Bool := e.currentSize == 0

end LRUCache

/-! ## Snapshot codec -/

/-- Little-endian encoding of `static_cast<uint32_t>(n)`. -/
def encodeU32 (n : Nat) : List Nat :=
  [n % 256, n / 256 % 256, n / 65536 % 256, n / 16777216 % 256]

/-- Little-endian decoding of four bytes. -/
def decodeU32 (b0 b1 b2 b3 : Nat) : Nat :=
  b0 + 256 * b1 + 65536 * b2 + 16777216 * b3

/-- One serialized record: `key_size, key_bytes, value_size, value_bytes`.
`file.write(key.c_str(), key_size)` emits `key_size` bytes where
`key_size = (uint32_t)key.size()`, hence the `take`. -/
def encodeRecord (r : Key × Val) : List Nat :=
  encodeU32 r.1.length ++ r.1.take (r.1.length % 4294967296) ++
  encodeU32 r.2.length ++ r.2.take (r.2.length % 4294967296)

/-- `(key, value)` pairs of the live nodes in head→tail order. -/
def recsOf (e : LRUCache) : List (Key × Val) :=
  e.nodes.map (fun p => (p.2.key, p.2.value))

/-- Keys of the live nodes in head→tail order. -/
def listKeys (e : LRUCache) : List Key :=
  e.nodes.map (fun p => p.2.key)

/-- Ids of the live nodes in head→tail order. -/
def listIds (e : LRUCache) : List Nat :=
  e.nodes.map Prod.fst

/-- `LRUCache::save_snapshot`: version-1 header, `count = (u32)current_size`,
then the records in head→tail list order. -/
def LRUCache.saveSnapshot (e : LRUCache) : List Nat :=
  encodeU32 1 ++ encodeU32 e.currentSize ++
    ((recsOf e).map encodeRecord).foldr (· ++ ·) []

/-- `std::ifstream` reader state: remaining bytes, sticky fail bit, and the
number of failed u32 reads so far (used to index the `junk` oracle). -/
structure RState where
  rest : List Nat
  bad : Bool
  junkCtr : Nat
  deriving Repr

/-- `file.read` of a `uint32_t`.  On failure (stream already bad, or fewer
than four bytes remain) the destination keeps its indeterminate value,
modelled by the oracle. -/
def readU32 (junk : Nat → Nat) (s : RState) : Nat × RState :=
  if s.bad then
    (junk s.junkCtr, { s with junkCtr := s.junkCtr + 1 })
  else
    match s.rest with
    | b0 :: b1 :: b2 :: b3 :: r =>
      (decodeU32 b0 b1 b2 b3, { s with rest := r })
    | _ =>
      (junk s.junkCtr, { rest := [], bad := true, junkCtr := s.junkCtr + 1 })

/-- `file.read` of `n` bytes into a NUL-filled `std::string(n, 0)`:
bytes actually available are filled in, the remainder stays NUL, and a
short read sets the fail bit. -/
def readBytes (n : Nat) (s : RState) : List Nat × RState :=
  if s.bad then
    (List.replicate n 0, s)
  else if n ≤ s.rest.length then
    (s.rest.take n, { s with rest := s.rest.drop n })
  else
    (s.rest ++ List.replicate (n - s.rest.length) 0,
     { rest := [], bad := true, junkCtr := s.junkCtr })

/-- The records the load loop reads, in stream order.  The loop never
inspects the stream state, so it always produces exactly `fuel` records. -/
def readRecords (junk : Nat → Nat) : Nat → RState → List (Key × Val)
  | 0, _ => []
  | fuel + 1, s =>
    let p1 := readU32 junk s
    let p2 := readBytes p1.1 p1.2
    let p3 := readU32 junk p2.2
    let p4 := readBytes p3.1 p3.2
    (p2.1, p4.1) :: readRecords junk fuel p4.2

/-- The loop body of `load_snapshot`: allocate a node for the record,
insert it at the head, set `cache_map[key]`, increment `current_size`. -/
def insRecord (now : Nat) (e : LRUCache) (r : Key × Val) : LRUCache :=
  { e with nodes := (e.nextId, Node.mk r.1 r.2 now 1) :: e.nodes,
           index := mapInsert e.index r.1 e.nextId,
           nextId := e.nextId + 1,
           currentSize := e.currentSize + 1 }

/-- Insert a list of records in order, as the load loop does. -/
def insertAll (now : Nat) (rs : List (Key × Val)) (e : LRUCache) : LRUCache :=
  rs.foldl (insRecord now) e

/-- The records `load_snapshot` materializes from a stream into an engine
of capacity `cap`: none on version mismatch, otherwise the first
`min count capacity` records read off the stream. -/
def loadRecs (junk : Nat → Nat) (cap : Nat) (stream : List Nat) :
    List (Key × Val) :=
  let s0 : RState := { rest := stream, bad := false, junkCtr := 0 }
  let p1 := readU32 junk s0
  let p2 := readU32 junk p1.2
  if p1.1 ≠ 1 then [] else readRecords junk (min p2.1 cap) p2.2

/-- `LRUCache::load_snapshot` on an already-opened stream: clear the
engine, read the header, reject `version ≠ 1`, then run the record loop
`min count capacity` times with no stream-state checks, and return `true`. -/
def LRUCache.loadSnapshot (e : LRUCache) (junk : Nat → Nat) (now : Nat)
    (stream : List Nat) : Bool × LRUCache :=
  let e0 := e.clear
  let s0 : RState := { rest := stream, bad := false, junkCtr := 0 }
  let p1 := readU32 junk s0
  let p2 := readU32 junk p1.2
  if p1.1 ≠ 1 then (false, e0)
  else (true, insertAll now (readRecords junk (min p2.1 e0.capacity) p2.2) e0)

/-! ## Façade (`KVStore`) with metrics -/

/-- `PerformanceMetrics` counters (timing fields omitted). -/
structure Metrics where
  totalOperations : Nat
  cacheHits : Nat
  cacheMisses : Nat
  evictions : Nat
  deriving Repr, DecidableEq

def Metrics.init : Metrics :=
  { totalOperations := 0, cacheHits := 0, cacheMisses := 0, evictions := 0 }

structure KVStore where
  cache : LRUCache
  metrics : Metrics
  deriving Repr

def mkStore (cap : Nat) : KVStore :=
  { cache := mkCache cap, metrics := Metrics.init }

/-- `KVStore::get`: bump `total_operations`, delegate, then bump exactly
one of `cache_hits` / `cache_misses`. -/
def KVStore.get (s : KVStore) (k : Key) (now : Nat) : Bool × Val × KVStore :=
  let m1 := { s.metrics with totalOperations := s.metrics.totalOperations + 1 }
  let r := s.cache.get k now
  let m2 :=
    if r.1 then { m1 with cacheHits := m1.cacheHits + 1 }
    else { m1 with cacheMisses := m1.cacheMisses + 1 }
  (r.1, r.2.1, { cache := r.2.2, metrics := m2 })

/-- `KVStore::put`: bump `total_operations`, delegate, detect eviction by
the size-delta heuristic. -/
def KVStore.put (s : KVStore) (k : Key) (v : Val) (now : Nat) : KVStore :=
  let m1 := { s.metrics with totalOperations := s.metrics.totalOperations + 1 }
  let oldSize := s.cache.size
  let c' := s.cache.put k v now
  let m2 :=
    if c'.size < oldSize + 1 then { m1 with evictions := m1.evictions + 1 }
    else m1
  { cache := c', metrics := m2 }

/-- `KVStore::remove`: bump `total_operations`, delegate. -/
def KVStore.removeKey (s : KVStore) (k : Key) : Bool × KVStore :=
  let m1 := { s.metrics with totalOperations := s.metrics.totalOperations + 1 }
  let r := s.cache.removeKey k
  (r.1, { cache := r.2, metrics := m1 })

/-- `KVStore::clear`: delegate to the engine, then `reset_metrics()`
(no `total_operations` increment). -/
def KVStore.clear (s : KVStore) : KVStore :=
  { cache := s.cache.clear, metrics := Metrics.init }

/-! ## Operation sequences on the engine -/

/-- One engine-level operation, for quantifying over histories. -/
inductive Op where
  | get (k : Key) (now : Nat)
  | put (k : Key) (v : Val) (now : Nat)
  | remove (k : Key)
  | clear
  | load (junk : Nat → Nat) (now : Nat) (stream : List Nat)

def applyOp (e : LRUCache) : Op → LRUCache
  | Op.get k now => ((e.get k now).2.2)
  | Op.put k v now => e.put k v now
  | Op.remove k => (e.removeKey k).2
  | Op.clear => e.clear
  | Op.load junk now stream => (e.loadSnapshot junk now stream).2

def applyOps (ops : List Op) (e : LRUCache) : LRUCache :=
  ops.foldl applyOp e

/-! ## Association-map lemmas -/

/-- Keys of the index map. -/
def mkeys (m : List (Key × Nat)) : List Key := m.map Prod.fst

/-! ## Node-list lemmas -/

/-- Ids of a raw node list. -/
def nids (l : List (Nat × Node)) : List Nat := l.map Prod.fst

/-! ## The structural invariant of the engine -/

/-- Structural consistency of an engine state: sizes agree, handles are
unique and fresh, keys are unique, and index and recency list reference
each other correctly. -/
structure Inv (e : LRUCache) : Prop where
  size_eq : e.currentSize = e.nodes.length
  index_len : e.index.length = e.nodes.length
  ids_nodup : (nids e.nodes).Nodup
  keys_nodup : (listKeys e).Nodup
  idx_keys_nodup : (mkeys e.index).Nodup
  ids_lt : ∀ p ∈ e.nodes, p.1 < e.nextId
  index_find : ∀ k id, mapFind e.index k = some id →
      ∃ n, (id, n) ∈ e.nodes ∧ n.key = k
  nodes_find : ∀ p ∈ e.nodes, mapFind e.index p.2.key = some p.1

/-- Well-formedness of a reachable engine: structural consistency plus the
capacity bounds (`capacity > 0` is enforced by the constructor). -/
def WF (e : LRUCache) : Prop :=
  Inv e ∧ e.currentSize ≤ e.capacity ∧ 0 < e.capacity

/-! ## Histories -/

/-- The side condition under which a `load` keeps the index and list in
lockstep: the records the loop materializes carry pairwise-distinct keys.
Every snapshot produced by `save_snapshot` from a consistent engine
satisfies it; a hand-crafted stream need not. -/
def OpOk (C : Nat) : Op → Prop
  | Op.load junk _ stream => ((loadRecs junk C stream).map Prod.fst).Nodup
  | _ => True

/-! ## Codec round-trip lemmas -/

/-- Concatenation of encoded records, as `save_snapshot` emits them. -/
def encodeRecs (rs : List (Key × Val)) : List Nat :=
  (rs.map encodeRecord).foldr (· ++ ·) []

/-! ## Sequences of `put` and LRU eviction order -/

/-- A sequence of `put`s applied left to right. -/
def putSeq (ps : List (Key × Val)) (now : Nat) (e : LRUCache) : LRUCache :=
  ps.foldl (fun acc p => acc.put p.1 p.2 now) e

/-! ## Well-formed and truncated streams -/

/-- Check that a stream suffix holds `k` complete records. -/
def recordsComplete : Nat → List Nat → Bool
  | 0, _ => true
  | k + 1, s =>
    match s with
    | b0 :: b1 :: b2 :: b3 :: r =>
      let ks := decodeU32 b0 b1 b2 b3
      if ks ≤ r.length then
        match r.drop ks with
        | c0 :: c1 :: c2 :: c3 :: r2 =>
          let vs := decodeU32 c0 c1 c2 c3
          if vs ≤ r2.length then recordsComplete k (r2.drop vs) else false
        | _ => false
      else false
    | _ => false

/-- A complete snapshot stream: version-1 header followed by `count`
complete records. -/
def streamComplete (s : List Nat) : Bool :=
  match s with
  | b0 :: b1 :: b2 :: b3 :: c0 :: c1 :: c2 :: c3 :: r =>
    decodeU32 b0 b1 b2 b3 == 1 && recordsComplete (decodeU32 c0 c1 c2 c3) r
  | _ => false

/-- A fixed oracle for indeterminate reads, for concrete executions. -/
def junk0 : Nat → Nat := fun _ => 0

/-- A version-1 stream announcing one record whose value field is cut
short: `key_size = 1`, key `[97]`, `value_size = 5`, but only two value
bytes present. -/
def truncStream : List Nat :=
  encodeU32 1 ++ encodeU32 1 ++ encodeU32 1 ++ [97] ++ encodeU32 5 ++ [98, 99]

/-- A complete version-1 stream carrying the same key `[1]` twice. -/
def dupStream : List Nat :=
  encodeU32 1 ++ encodeU32 2 ++ encodeRecord ([1], [7]) ++ encodeRecord ([1], [8])

/-- A history touching every operation, used to witness `C3_invariant`. -/
def c3ops : List Op :=
  [Op.put [1] [2] 0, Op.get [1] 1, Op.remove [2], Op.clear,
   Op.load junk0 0 truncStream]

/-- An engine holding two keys, used to witness the round trip. -/
def rtEngine : LRUCache := ((mkCache 2).put [1] [7] 0).put [2] [8] 1

theorem mkeys_cons (p : Key × Nat) (m : List (Key × Nat)) :
    mkeys (p :: m) = p.1 :: mkeys m := rfl

theorem mapFind_eq_none_iff (m : List (Key × Nat)) (k : Key) :
    mapFind m k = none ↔ k ∉ mkeys m := by
  induction m with
  | nil => simp [mapFind, mkeys]
  | cons p m ih =>
    obtain ⟨k', v⟩ := p
    by_cases h : k = k' <;> simp [mapFind, mkeys_cons, h, ih]

theorem mapFind_isSome_iff (m : List (Key × Nat)) (k : Key) :
    (mapFind m k).isSome ↔ k ∈ mkeys m := by
  constructor
  · intro hs
    by_contra hc
    rw [(mapFind_eq_none_iff m k).mpr hc] at hs
    simp at hs
  · intro hm
    cases hq : mapFind m k with
    | none => exact absurd hm ((mapFind_eq_none_iff m k).mp hq)
    | some v => simp

theorem mapFind_mem (m : List (Key × Nat)) (k : Key) (v : Nat)
    (h : mapFind m k = some v) : (k, v) ∈ m := by
  induction m with
  | nil => simp [mapFind] at h
  | cons p m ih =>
    obtain ⟨k', v'⟩ := p
    by_cases hk : k = k'
    · simp [mapFind, hk] at h
      simp [hk, h]
    · simp [mapFind, hk] at h
      exact List.mem_cons_of_mem _ (ih h)

theorem mapFind_insert (m : List (Key × Nat)) (k k' : Key) (v : Nat) :
    mapFind (mapInsert m k v) k' =
      if k' = k then some v else mapFind m k' := by
  induction m with
  | nil =>
    by_cases h : k' = k <;> simp [mapInsert, mapFind, h]
  | cons p m ih =>
    obtain ⟨k0, v0⟩ := p
    by_cases h0 : k = k0
    · subst h0
      by_cases h : k' = k <;> simp [mapInsert, mapFind, h]
    · by_cases h1 : k' = k0
      · subst h1
        have h2 : ¬k' = k := fun hc => h0 hc.symm
        simp [mapInsert, h0, mapFind, h2]
      · by_cases h : k' = k
        · subst h
          simp [mapInsert, h0, mapFind, h1, ih]
        · simp [mapInsert, h0, mapFind, h1, ih, h]

theorem notMem_head_tail {k k0 : Key} {l : List Key}
    (h : k ∉ k0 :: l) : k ≠ k0 ∧ k ∉ l := by
  constructor
  · intro hc; exact h (by simp [hc])
  · intro hc; exact h (by simp [hc])

theorem mkeys_mapInsert_of_notMem (m : List (Key × Nat)) (k : Key) (v : Nat)
    (h : k ∉ mkeys m) : mkeys (mapInsert m k v) = mkeys m ++ [k] := by
  induction m with
  | nil => simp [mapInsert, mkeys]
  | cons p m ih =>
    obtain ⟨k0, v0⟩ := p
    rw [mkeys_cons] at h
    obtain ⟨h1, h2⟩ := notMem_head_tail h
    have h3 : ¬k = k0 := h1
    simp [mapInsert, h3, mkeys_cons, ih h2]

theorem mkeys_mapInsert_of_mem (m : List (Key × Nat)) (k : Key) (v : Nat)
    (h : k ∈ mkeys m) : mkeys (mapInsert m k v) = mkeys m := by
  induction m with
  | nil => simp [mkeys] at h
  | cons p m ih =>
    obtain ⟨k0, v0⟩ := p
    by_cases h0 : k = k0
    · simp [mapInsert, h0, mkeys_cons]
    · rw [mkeys_cons] at h
      rcases List.mem_cons.mp h with h1 | h1
      · exact absurd h1 h0
      · simp [mapInsert, h0, mkeys_cons, ih h1]

theorem mapErase_of_notMem (m : List (Key × Nat)) (k : Key)
    (h : k ∉ mkeys m) : mapErase m k = m := by
  induction m with
  | nil => rfl
  | cons p m ih =>
    obtain ⟨k0, v0⟩ := p
    rw [mkeys_cons] at h
    obtain ⟨h1, h2⟩ := notMem_head_tail h
    have h3 : ¬k = k0 := h1
    simp [mapErase, h3, ih h2]

theorem mkeys_mapErase_sub (m : List (Key × Nat)) (k : Key) :
    ∀ k' ∈ mkeys (mapErase m k), k' ∈ mkeys m := by
  induction m with
  | nil => simp [mapErase, mkeys]
  | cons p m ih =>
    obtain ⟨k0, v0⟩ := p
    intro k' h'
    by_cases h0 : k = k0
    · rw [mapErase, if_pos h0] at h'
      exact List.mem_cons_of_mem _ h'
    · rw [mapErase, if_neg h0, mkeys_cons] at h'
      rcases List.mem_cons.mp h' with h1 | h1
      · rw [mkeys_cons, h1]; exact List.mem_cons_self _ _
      · exact List.mem_cons_of_mem _ (ih k' h1)

theorem length_mapErase_of_mem (m : List (Key × Nat)) (k : Key)
    (h : k ∈ mkeys m) : (mapErase m k).length + 1 = m.length := by
  induction m with
  | nil => simp [mkeys] at h
  | cons p m ih =>
    obtain ⟨k0, v0⟩ := p
    by_cases h0 : k = k0
    · simp [mapErase, h0]
    · rw [mkeys_cons] at h
      rcases List.mem_cons.mp h with h1 | h1
      · exact absurd h1 h0
      · have h2 := ih h1
        simp only [mapErase, if_neg h0, List.length_cons]
        omega

theorem length_mapInsert_of_notMem (m : List (Key × Nat)) (k : Key) (v : Nat)
    (h : k ∉ mkeys m) : (mapInsert m k v).length = m.length + 1 := by
  induction m with
  | nil => rfl
  | cons p m ih =>
    obtain ⟨k0, v0⟩ := p
    rw [mkeys_cons] at h
    obtain ⟨h1, h2⟩ := notMem_head_tail h
    have h3 : ¬k = k0 := h1
    simp [mapInsert, h3, ih h2]

theorem length_mapInsert_of_mem (m : List (Key × Nat)) (k : Key) (v : Nat)
    (h : k ∈ mkeys m) : (mapInsert m k v).length = m.length := by
  induction m with
  | nil => simp [mkeys] at h
  | cons p m ih =>
    obtain ⟨k0, v0⟩ := p
    by_cases h0 : k = k0
    · simp [mapInsert, h0]
    · rw [mkeys_cons] at h
      rcases List.mem_cons.mp h with h1 | h1
      · exact absurd h1 h0
      · simp [mapInsert, h0, ih h1]

theorem mkeys_mapErase_nodup (m : List (Key × Nat)) (k : Key)
    (h : (mkeys m).Nodup) : (mkeys (mapErase m k)).Nodup := by
  induction m with
  | nil => simp [mapErase, mkeys]
  | cons p m ih =>
    obtain ⟨k0, v0⟩ := p
    rw [mkeys_cons, List.nodup_cons] at h
    by_cases h0 : k = k0
    · simpa [mapErase, h0] using h.2
    · rw [mapErase, if_neg h0, mkeys_cons, List.nodup_cons]
      exact ⟨fun hc => h.1 (mkeys_mapErase_sub m k k0 hc), ih h.2⟩

theorem mapFind_erase (m : List (Key × Nat)) (k k' : Key)
    (h : (mkeys m).Nodup) :
    mapFind (mapErase m k) k' =
      if k' = k then none else mapFind m k' := by
  induction m with
  | nil => simp [mapErase, mapFind]
  | cons p m ih =>
    obtain ⟨k0, v0⟩ := p
    rw [mkeys_cons, List.nodup_cons] at h
    by_cases h0 : k = k0
    · subst h0
      by_cases h1 : k' = k
      · subst h1
        simp [mapErase, (mapFind_eq_none_iff m k').mpr h.1]
      · simp [mapErase, mapFind, h1]
    · by_cases h1 : k' = k0
      · subst h1
        have h2 : ¬k' = k := fun hc => h0 hc.symm
        simp [mapErase, h0, mapFind, h2]
      · simp [mapErase, h0, mapFind, h1, ih h.2]

theorem nids_cons (p : Nat × Node) (l : List (Nat × Node)) :
    nids (p :: l) = p.1 :: nids l := rfl

theorem mem_nids_of_mem {p : Nat × Node} {l : List (Nat × Node)}
    (h : p ∈ l) : p.1 ∈ nids l := List.mem_map_of_mem Prod.fst h

theorem fst_mem_nids {id : Nat} {n : Node} {l : List (Nat × Node)}
    (h : (id, n) ∈ l) : id ∈ nids l := mem_nids_of_mem h

theorem mem_removeId {p : Nat × Node} {l : List (Nat × Node)} {id : Nat} :
    p ∈ removeId l id ↔ p ∈ l ∧ p.1 ≠ id := by
  simp [removeId, List.mem_filter]

theorem removeId_of_notMem {l : List (Nat × Node)} {id : Nat}
    (h : id ∉ nids l) : removeId l id = l := by
  rw [removeId, List.filter_eq_self]
  intro a ha
  simp only [ne_eq, decide_eq_true_eq]
  intro hc
  exact h (hc ▸ mem_nids_of_mem ha)

theorem findId_eq_some_of_mem {l : List (Nat × Node)} {id : Nat} {n : Node}
    (hnd : (nids l).Nodup) (h : (id, n) ∈ l) : findId l id = some n := by
  induction l with
  | nil => simp at h
  | cons a t ih =>
    obtain ⟨i, n0⟩ := a
    rw [nids_cons, List.nodup_cons] at hnd
    rcases List.mem_cons.mp h with h1 | h1
    · obtain ⟨rfl, rfl⟩ := Prod.mk.injEq .. ▸ h1
      simp [findId]
    · have hne : id ≠ i := by
        intro hc
        subst hc
        exact hnd.1 (fst_mem_nids h1)
      simp [findId, hne, ih hnd.2 h1]

theorem findId_mem {l : List (Nat × Node)} {id : Nat} {n : Node}
    (h : findId l id = some n) : (id, n) ∈ l := by
  induction l with
  | nil => simp [findId] at h
  | cons a t ih =>
    obtain ⟨i, n0⟩ := a
    by_cases hi : id = i
    · subst hi
      simp [findId] at h
      simp [h]
    · simp [findId, hi] at h
      exact List.mem_cons_of_mem _ (ih h)

theorem perm_cons_removeId {l : List (Nat × Node)} {id : Nat} {n : Node}
    (hnd : (nids l).Nodup) (h : (id, n) ∈ l) :
    l.Perm ((id, n) :: removeId l id) := by
  induction l with
  | nil => simp at h
  | cons a t ih =>
    obtain ⟨i, n0⟩ := a
    rw [nids_cons, List.nodup_cons] at hnd
    rcases List.mem_cons.mp h with h1 | h1
    · obtain ⟨rfl, rfl⟩ := Prod.mk.injEq .. ▸ h1
      have ht : removeId ((id, n) :: t) id = removeId t id := by
        simp [removeId]
      rw [ht, removeId_of_notMem hnd.1]
    · have hne : i ≠ id := by
        intro hc
        subst hc
        exact hnd.1 (fst_mem_nids h1)
      have ht : removeId ((i, n0) :: t) id = (i, n0) :: removeId t id := by
        simp [removeId, hne]
      rw [ht]
      exact ((ih hnd.2 h1).cons (i, n0)).trans (List.Perm.swap _ _ _)

theorem getLast?_mem {l : List (Nat × Node)} {p : Nat × Node}
    (h : l.getLast? = some p) : p ∈ l := by
  cases l with
  | nil => simp at h
  | cons a t =>
    have hne : a :: t ≠ [] := by simp
    rw [List.getLast?_eq_getLast _ hne] at h
    exact (Option.some.injEq .. ▸ h) ▸ List.getLast_mem hne

theorem removeId_eq_dropLast {l : List (Nat × Node)} {p : Nat × Node}
    (hnd : (nids l).Nodup) (h : l.getLast? = some p) :
    removeId l p.1 = l.dropLast := by
  induction l with
  | nil => simp at h
  | cons a t ih =>
    cases t with
    | nil =>
      simp at h
      subst h
      simp [removeId]
    | cons b t2 =>
      rw [List.getLast?_cons_cons] at h
      rw [nids_cons, List.nodup_cons] at hnd
      have hp : p ∈ b :: t2 := getLast?_mem h
      have hne : a.1 ≠ p.1 := by
        intro hc
        exact hnd.1 (hc ▸ mem_nids_of_mem hp)
      have ht : removeId (a :: b :: t2) p.1 = a :: removeId (b :: t2) p.1 := by
        simp [removeId, hne]
      rw [ht, ih hnd.2 h]
      rfl

theorem key_mem_listKeys {e : LRUCache} {p : Nat × Node}
    (h : p ∈ e.nodes) : p.2.key ∈ listKeys e :=
  List.mem_map_of_mem (fun q => q.2.key) h

theorem mapFind_none_iff_notMem_listKeys {e : LRUCache} (hInv : Inv e)
    (k : Key) : mapFind e.index k = none ↔ k ∉ listKeys e := by
  constructor
  · intro hn hm
    obtain ⟨p, hp, hpk⟩ := List.mem_map.mp hm
    have := hInv.nodes_find p hp
    rw [hpk, hn] at this
    cases this
  · intro hm
    cases hq : mapFind e.index k with
    | none => rfl
    | some id =>
      obtain ⟨n, hn, hnk⟩ := hInv.index_find k id hq
      exact absurd (hnk ▸ key_mem_listKeys hn) hm

theorem node_eq_of_key_eq {e : LRUCache} (hInv : Inv e) {p q : Nat × Node}
    (hp : p ∈ e.nodes) (hq : q ∈ e.nodes) (hk : p.2.key = q.2.key) : p = q :=
  List.inj_on_of_nodup_map hInv.keys_nodup hp hq hk

theorem node_eq_of_id_eq {e : LRUCache} (hInv : Inv e) {p q : Nat × Node}
    (hp : p ∈ e.nodes) (hq : q ∈ e.nodes) (hk : p.1 = q.1) : p = q :=
  List.inj_on_of_nodup_map hInv.ids_nodup hp hq hk

theorem Inv_mkCache (cap : Nat) : Inv (mkCache cap) := by
  constructor <;> simp [mkCache, nids, listKeys, mkeys, mapFind]

theorem WF_mkCache {cap : Nat} (h : 0 < cap) : WF (mkCache cap) :=
  ⟨Inv_mkCache cap, Nat.zero_le cap, h⟩

theorem Inv_clear (e : LRUCache) : Inv e.clear := by
  constructor <;> simp [LRUCache.clear, nids, listKeys, mkeys, mapFind]

theorem WF_clear {e : LRUCache} (h : 0 < e.capacity) : WF e.clear :=
  ⟨Inv_clear e, Nat.zero_le _, h⟩

/-- Splice-to-head with a metadata/value update preserves the invariant. -/
theorem Inv_splice {e : LRUCache} (hInv : Inv e) {id : Nat} {n n' : Node}
    (hmem : (id, n) ∈ e.nodes) (hkey : n'.key = n.key) :
    Inv { e with nodes := (id, n') :: removeId e.nodes id } := by
  have hperm : e.nodes.Perm ((id, n) :: removeId e.nodes id) :=
    perm_cons_removeId hInv.ids_nodup hmem
  have hpermIds : (nids e.nodes).Perm (id :: nids (removeId e.nodes id)) := by
    simpa [nids] using hperm.map Prod.fst
  have hpermKeys :
      (listKeys e).Perm (n.key :: (removeId e.nodes id).map (fun q => q.2.key)) := by
    simpa [listKeys] using hperm.map (fun q => q.2.key)
  refine ⟨?_, ?_, ?_, ?_, ?_, ?_, ?_, ?_⟩
  · simpa [hperm.length_eq] using hInv.size_eq
  · simpa [hperm.length_eq] using hInv.index_len
  · simpa [nids_cons] using hpermIds.nodup_iff.mp hInv.ids_nodup
  · have := hpermKeys.nodup_iff.mp hInv.keys_nodup
    simpa [listKeys, hkey] using this
  · exact hInv.idx_keys_nodup
  · intro p hp
    rcases List.mem_cons.mp hp with h1 | h1
    · subst h1
      exact hInv.ids_lt (id, n) hmem
    · exact hInv.ids_lt p (mem_removeId.mp h1).1
  · intro k0 id0 hf
    obtain ⟨n0, hn0, hn0k⟩ := hInv.index_find k0 id0 hf
    by_cases hid : id0 = id
    · subst hid
      have : (id0, n0) = (id0, n) := node_eq_of_id_eq hInv hn0 hmem rfl
      refine ⟨n', List.mem_cons_self _ _, ?_⟩
      rw [hkey, ← hn0k]
      have := congrArg (fun q => q.2.key) this
      simpa using this.symm
    · exact ⟨n0, List.mem_cons_of_mem _ (mem_removeId.mpr ⟨hn0, hid⟩), hn0k⟩
  · intro p hp
    rcases List.mem_cons.mp hp with h1 | h1
    · subst h1
      simpa [hkey] using hInv.nodes_find (id, n) hmem
    · exact hInv.nodes_find p (mem_removeId.mp h1).1

/-- Unlinking a node and erasing its key preserves the invariant. -/
theorem Inv_unlink {e : LRUCache} (hInv : Inv e) {id : Nat} {n : Node}
    (hmem : (id, n) ∈ e.nodes) :
    Inv { e with nodes := removeId e.nodes id,
                 index := mapErase e.index n.key,
                 currentSize := e.currentSize - 1 } := by
  have hperm : e.nodes.Perm ((id, n) :: removeId e.nodes id) :=
    perm_cons_removeId hInv.ids_nodup hmem
  have hpermIds : (nids e.nodes).Perm (id :: nids (removeId e.nodes id)) := by
    simpa [nids] using hperm.map Prod.fst
  have hpermKeys :
      (listKeys e).Perm (n.key :: (removeId e.nodes id).map (fun q => q.2.key)) := by
    simpa [listKeys] using hperm.map (fun q => q.2.key)
  have hkmem : n.key ∈ mkeys e.index := by
    have := hInv.nodes_find (id, n) hmem
    have hs : (mapFind e.index n.key).isSome := by rw [this]; rfl
    exact (mapFind_isSome_iff e.index n.key).mp hs
  refine ⟨?_, ?_, ?_, ?_, ?_, ?_, ?_, ?_⟩
  · have h1 := hperm.length_eq
    have h2 := hInv.size_eq
    simp only [List.length_cons] at h1
    simp only
    omega
  · have h1 := hperm.length_eq
    have h2 := hInv.index_len
    have h3 := length_mapErase_of_mem e.index n.key hkmem
    simp only [List.length_cons] at h1
    simp only
    omega
  · exact (List.nodup_cons.mp (hpermIds.nodup_iff.mp hInv.ids_nodup)).2
  · have := (List.nodup_cons.mp (hpermKeys.nodup_iff.mp hInv.keys_nodup)).2
    simpa [listKeys] using this
  · exact mkeys_mapErase_nodup e.index n.key hInv.idx_keys_nodup
  · intro p hp
    exact hInv.ids_lt p (mem_removeId.mp hp).1
  · intro k0 id0 hf
    rw [mapFind_erase e.index n.key k0 hInv.idx_keys_nodup] at hf
    by_cases hk0 : k0 = n.key
    · simp [hk0] at hf
    · rw [if_neg hk0] at hf
      obtain ⟨n0, hn0, hn0k⟩ := hInv.index_find k0 id0 hf
      have hid : id0 ≠ id := by
        intro hc
        subst hc
        have : (id0, n0) = (id0, n) := node_eq_of_id_eq hInv hn0 hmem rfl
        have := congrArg (fun q => q.2.key) this
        simp at this
        exact hk0 (hn0k ▸ this ▸ rfl)
      exact ⟨n0, mem_removeId.mpr ⟨hn0, hid⟩, hn0k⟩
  · intro p hp
    obtain ⟨hp1, hp2⟩ := mem_removeId.mp hp
    rw [mapFind_erase e.index n.key _ hInv.idx_keys_nodup]
    have hk : p.2.key ≠ n.key := by
      intro hc
      have : p = (id, n) := node_eq_of_key_eq hInv hp1 hmem hc
      exact hp2 (congrArg Prod.fst this)
    rw [if_neg hk]
    exact hInv.nodes_find p hp1

/-- Inserting a fresh node for an absent key preserves the invariant. -/
theorem Inv_insert {e : LRUCache} (hInv : Inv e) (k : Key) (v : Val)
    (now : Nat) (habs : mapFind e.index k = none) :
    Inv { e with nodes := (e.nextId, Node.mk k v now 1) :: e.nodes,
                 index := mapInsert e.index k e.nextId,
                 nextId := e.nextId + 1,
                 currentSize := e.currentSize + 1 } := by
  have hkidx : k ∉ mkeys e.index := (mapFind_eq_none_iff e.index k).mp habs
  have hkeys : k ∉ listKeys e := (mapFind_none_iff_notMem_listKeys hInv k).mp habs
  have hfresh : e.nextId ∉ nids e.nodes := by
    intro hc
    obtain ⟨p, hp, hpe⟩ := List.mem_map.mp hc
    exact Nat.lt_irrefl _ (hpe ▸ hInv.ids_lt p hp)
  refine ⟨?_, ?_, ?_, ?_, ?_, ?_, ?_, ?_⟩
  · simpa using congrArg Nat.succ hInv.size_eq
  · rw [length_mapInsert_of_notMem e.index k e.nextId hkidx]
    simpa using congrArg Nat.succ hInv.index_len
  · exact List.nodup_cons.mpr ⟨hfresh, hInv.ids_nodup⟩
  · simpa [listKeys] using List.nodup_cons.mpr ⟨hkeys, hInv.keys_nodup⟩
  · rw [mkeys_mapInsert_of_notMem e.index k e.nextId hkidx]
    simp only [List.nodup_append, List.nodup_cons]
    refine ⟨hInv.idx_keys_nodup, by simp, ?_⟩
    intro a ha hb
    simp at hb
    exact hkidx (hb ▸ ha)
  · intro p hp
    rcases List.mem_cons.mp hp with h1 | h1
    · simp [h1]
    · exact Nat.lt_trans (hInv.ids_lt p h1) (Nat.lt_succ_self _)
  · intro k0 id0 hf
    rw [mapFind_insert] at hf
    by_cases hk0 : k0 = k
    · rw [if_pos hk0] at hf
      refine ⟨Node.mk k v now 1, by simp [← Option.some.injEq .. ▸ hf], hk0.symm ▸ rfl⟩
    · rw [if_neg hk0] at hf
      obtain ⟨n0, hn0, hn0k⟩ := hInv.index_find k0 id0 hf
      exact ⟨n0, List.mem_cons_of_mem _ hn0, hn0k⟩
  · intro p hp
    rcases List.mem_cons.mp hp with h1 | h1
    · subst h1
      simp [mapFind_insert]
    · have hk : p.2.key ≠ k := by
        intro hc
        exact hkeys (hc ▸ key_mem_listKeys h1)
      rw [mapFind_insert, if_neg hk]
      exact hInv.nodes_find p h1

/-! ## Behaviour lemmas for the engine operations -/

theorem get_miss {e : LRUCache} {k : Key} (now : Nat)
    (hf : mapFind e.index k = none) : e.get k now = (false, [], e) := by
  simp [LRUCache.get, hf]

theorem get_hit {e : LRUCache} {k : Key} {id : Nat} {n : Node} (now : Nat)
    (hnd : (nids e.nodes).Nodup)
    (hf : mapFind e.index k = some id) (hmem : (id, n) ∈ e.nodes) :
    e.get k now =
      (true, n.value,
       { e with nodes :=
           (id, { n with lastAccessed := now, accessCount := n.accessCount + 1 })
             :: removeId e.nodes id }) := by
  simp [LRUCache.get, hf, findId_eq_some_of_mem hnd hmem]

theorem put_update {e : LRUCache} {k : Key} {id : Nat} {n : Node}
    (v : Val) (now : Nat) (hnd : (nids e.nodes).Nodup)
    (hf : mapFind e.index k = some id) (hmem : (id, n) ∈ e.nodes) :
    e.put k v now =
      { e with nodes :=
          (id, { n with value := v, lastAccessed := now,
                        accessCount := n.accessCount + 1 })
            :: removeId e.nodes id } := by
  simp [LRUCache.put, hf, findId_eq_some_of_mem hnd hmem]

theorem put_new_noevict {e : LRUCache} {k : Key} (v : Val) (now : Nat)
    (hf : mapFind e.index k = none) (hlt : e.currentSize < e.capacity) :
    e.put k v now =
      { e with nodes := (e.nextId, Node.mk k v now 1) :: e.nodes,
               index := mapInsert e.index k e.nextId,
               nextId := e.nextId + 1,
               currentSize := e.currentSize + 1 } := by
  simp [LRUCache.put, hf, Nat.not_le.mpr hlt]

theorem put_new_evict {e : LRUCache} {k : Key} {p : Nat × Node}
    (v : Val) (now : Nat)
    (hf : mapFind e.index k = none) (hge : e.capacity ≤ e.currentSize)
    (hlast : e.nodes.getLast? = some p) :
    e.put k v now =
      { e with nodes := (e.nextId, Node.mk k v now 1) :: removeId e.nodes p.1,
               index := mapInsert (mapErase e.index p.2.key) k e.nextId,
               nextId := e.nextId + 1,
               currentSize := e.currentSize - 1 + 1 } := by
  simp [LRUCache.put, hf, hge, hlast]

theorem removeKey_miss {e : LRUCache} {k : Key}
    (hf : mapFind e.index k = none) : e.removeKey k = (false, e) := by
  simp [LRUCache.removeKey, hf]

theorem removeKey_hit {e : LRUCache} {k : Key} {id : Nat}
    (hf : mapFind e.index k = some id) :
    e.removeKey k =
      (true, { e with nodes := removeId e.nodes id,
                      index := mapErase e.index k,
                      currentSize := e.currentSize - 1 }) := by
  simp [LRUCache.removeKey, hf]

/-! ## WF preservation per operation -/

theorem WF_get {e : LRUCache} (hwf : WF e) (k : Key) (now : Nat) :
    WF (e.get k now).2.2 := by
  obtain ⟨hInv, hle, hpos⟩ := hwf
  cases hf : mapFind e.index k with
  | none => rw [get_miss now hf]; exact ⟨hInv, hle, hpos⟩
  | some id =>
    obtain ⟨n, hmem, hkey⟩ := hInv.index_find k id hf
    rw [get_hit now hInv.ids_nodup hf hmem]
    exact ⟨Inv_splice hInv hmem rfl, hle, hpos⟩

theorem WF_put {e : LRUCache} (hwf : WF e) (k : Key) (v : Val) (now : Nat) :
    WF (e.put k v now) := by
  obtain ⟨hInv, hle, hpos⟩ := hwf
  cases hf : mapFind e.index k with
  | some id =>
    obtain ⟨n, hmem, hkey⟩ := hInv.index_find k id hf
    rw [put_update v now hInv.ids_nodup hf hmem]
    exact ⟨Inv_splice hInv hmem rfl, hle, hpos⟩
  | none =>
    by_cases hc : e.capacity ≤ e.currentSize
    · have hlen : e.nodes.length = e.currentSize := hInv.size_eq.symm
      have hne : e.nodes ≠ [] := by
        intro h0
        rw [h0] at hlen
        simp at hlen
        omega
      obtain ⟨p, hlast⟩ := Option.ne_none_iff_exists'.mp
        (mt List.getLast?_eq_none_iff.mp hne)
      rw [put_new_evict v now hf hc hlast]
      have hmem : p ∈ e.nodes := getLast?_mem hlast
      have hmem' : (p.1, p.2) ∈ e.nodes := by simpa using hmem
      have hInv2 := Inv_unlink hInv hmem'
      have habs2 : mapFind (mapErase e.index p.2.key) k = none := by
        rw [mapFind_erase e.index p.2.key k hInv.idx_keys_nodup]
        by_cases hk : k = p.2.key
        · simp [hk]
        · rw [if_neg hk]; exact hf
      have := Inv_insert (e := { e with nodes := removeId e.nodes p.1,
                                        index := mapErase e.index p.2.key,
                                        currentSize := e.currentSize - 1 })
        hInv2 k v now habs2
      refine ⟨this, ?_, hpos⟩
      have : e.currentSize = e.nodes.length := hInv.size_eq
      simp only
      omega
    · rw [put_new_noevict v now hf (Nat.not_le.mp hc)]
      exact ⟨Inv_insert hInv k v now hf, Nat.not_le.mp hc, hpos⟩

theorem WF_removeKey {e : LRUCache} (hwf : WF e) (k : Key) :
    WF (e.removeKey k).2 := by
  obtain ⟨hInv, hle, hpos⟩ := hwf
  cases hf : mapFind e.index k with
  | none => rw [removeKey_miss hf]; exact ⟨hInv, hle, hpos⟩
  | some id =>
    obtain ⟨n, hmem, hkey⟩ := hInv.index_find k id hf
    rw [removeKey_hit hf]
    have := Inv_unlink hInv hmem
    rw [hkey] at this
    exact ⟨this, Nat.le_trans (Nat.sub_le _ _) hle, hpos⟩

/-! ## Load-loop lemmas -/

theorem length_readRecords (junk : Nat → Nat) :
    ∀ (fuel : Nat) (s : RState), (readRecords junk fuel s).length = fuel := by
  intro fuel
  induction fuel with
  | zero => intro s; rfl
  | succ f ih => intro s; simp [readRecords, ih]

theorem recsOf_insRecord (now : Nat) (e : LRUCache) (r : Key × Val) :
    recsOf (insRecord now e r) = (r.1, r.2) :: recsOf e := by
  simp [insRecord, recsOf]

theorem recsOf_insertAll (now : Nat) (rs : List (Key × Val)) :
    ∀ e : LRUCache, recsOf (insertAll now rs e) = rs.reverse ++ recsOf e := by
  induction rs with
  | nil => intro e; simp [insertAll]
  | cons r rs ih =>
    intro e
    have : insertAll now (r :: rs) e = insertAll now rs (insRecord now e r) := rfl
    rw [this, ih, recsOf_insRecord]
    simp

theorem size_insertAll (now : Nat) (rs : List (Key × Val)) :
    ∀ e : LRUCache,
      (insertAll now rs e).currentSize = e.currentSize + rs.length := by
  induction rs with
  | nil => intro e; simp [insertAll]
  | cons r rs ih =>
    intro e
    have : insertAll now (r :: rs) e = insertAll now rs (insRecord now e r) := rfl
    rw [this, ih]
    simp [insRecord]
    omega

theorem capacity_insertAll (now : Nat) (rs : List (Key × Val)) :
    ∀ e : LRUCache, (insertAll now rs e).capacity = e.capacity := by
  induction rs with
  | nil => intro e; rfl
  | cons r rs ih =>
    intro e
    have : insertAll now (r :: rs) e = insertAll now rs (insRecord now e r) := rfl
    rw [this, ih]
    rfl

theorem insRecord_eq_insert_shape (now : Nat) (e : LRUCache) (r : Key × Val) :
    insRecord now e r =
      { e with nodes := (e.nextId, Node.mk r.1 r.2 now 1) :: e.nodes,
               index := mapInsert e.index r.1 e.nextId,
               nextId := e.nextId + 1,
               currentSize := e.currentSize + 1 } := rfl

theorem Inv_insertAll (now : Nat) (rs : List (Key × Val)) :
    ∀ e : LRUCache, Inv e → (rs.map Prod.fst).Nodup →
      (∀ r ∈ rs, mapFind e.index r.1 = none) →
      Inv (insertAll now rs e) := by
  induction rs with
  | nil => intro e hInv _ _; exact hInv
  | cons r rs ih =>
    intro e hInv hnd habs
    rw [List.map_cons, List.nodup_cons] at hnd
    have hstep : insertAll now (r :: rs) e = insertAll now rs (insRecord now e r) := rfl
    rw [hstep]
    refine ih _ (insRecord_eq_insert_shape now e r ▸
      Inv_insert hInv r.1 r.2 now (habs r (List.mem_cons_self _ _))) hnd.2 ?_
    intro r' hr'
    have hne : r'.1 ≠ r.1 := by
      intro hc
      exact hnd.1 (hc ▸ List.mem_map_of_mem Prod.fst hr')
    simp only [insRecord, mapFind_insert, if_neg hne]
    exact habs r' (List.mem_cons_of_mem _ hr')

/-! ## `load_snapshot` structure lemmas -/

theorem capacity_clear (e : LRUCache) : e.clear.capacity = e.capacity := rfl

theorem loadSnapshot_version_ne {e : LRUCache} {junk : Nat → Nat} {now : Nat}
    {stream : List Nat}
    (hv : (readU32 junk { rest := stream, bad := false, junkCtr := 0 }).1 ≠ 1) :
    e.loadSnapshot junk now stream = (false, e.clear) := by
  simp [LRUCache.loadSnapshot, hv]

theorem loadSnapshot_version_eq {e : LRUCache} {junk : Nat → Nat} {now : Nat}
    {stream : List Nat}
    (hv : (readU32 junk { rest := stream, bad := false, junkCtr := 0 }).1 = 1) :
    e.loadSnapshot junk now stream =
      (true, insertAll now (loadRecs junk e.capacity stream) e.clear) := by
  simp [LRUCache.loadSnapshot, loadRecs, hv, capacity_clear]

theorem length_loadRecs_le (junk : Nat → Nat) (cap : Nat) (stream : List Nat) :
    (loadRecs junk cap stream).length ≤ cap := by
  rw [loadRecs]
  by_cases hv : (readU32 junk { rest := stream, bad := false, junkCtr := 0 }).1 = 1
  · simp only [hv]
    rw [if_neg (by simp)]
    rw [length_readRecords]
    exact Nat.min_le_right _ _
  · simp only [if_pos hv]
    exact Nat.zero_le _

theorem WF_loadSnapshot {e : LRUCache} (hpos : 0 < e.capacity)
    (junk : Nat → Nat) (now : Nat) (stream : List Nat)
    (hnd : ((loadRecs junk e.capacity stream).map Prod.fst).Nodup) :
    WF (e.loadSnapshot junk now stream).2 := by
  by_cases hv : (readU32 junk { rest := stream, bad := false, junkCtr := 0 }).1 = 1
  · rw [loadSnapshot_version_eq hv]
    refine ⟨Inv_insertAll now _ _ (Inv_clear e) hnd ?_, ?_, ?_⟩
    · intro r _
      rfl
    · rw [size_insertAll, capacity_insertAll, capacity_clear]
      have h1 := length_loadRecs_le junk e.capacity stream
      simp [LRUCache.clear]
      omega
    · rw [capacity_insertAll, capacity_clear]
      exact hpos
  · rw [loadSnapshot_version_ne hv]
    exact WF_clear hpos

theorem capacity_get (e : LRUCache) (k : Key) (now : Nat) :
    (e.get k now).2.2.capacity = e.capacity := by
  cases hf : mapFind e.index k with
  | none => rw [get_miss now hf]
  | some id =>
    cases hg : findId e.nodes id with
    | none => simp [LRUCache.get, hf, hg]
    | some n => simp [LRUCache.get, hf, hg]

theorem capacity_put (e : LRUCache) (k : Key) (v : Val) (now : Nat) :
    (e.put k v now).capacity = e.capacity := by
  cases hf : mapFind e.index k with
  | some id =>
    cases hg : findId e.nodes id with
    | none => simp [LRUCache.put, hf, hg]
    | some n => simp [LRUCache.put, hf, hg]
  | none =>
    by_cases hc : e.capacity ≤ e.currentSize <;>
      cases hlast : e.nodes.getLast? <;>
        simp [LRUCache.put, hf, hc, hlast]

theorem capacity_removeKey (e : LRUCache) (k : Key) :
    (e.removeKey k).2.capacity = e.capacity := by
  cases hf : mapFind e.index k with
  | none => rw [removeKey_miss hf]
  | some id => rw [removeKey_hit hf]

theorem capacity_loadSnapshot (e : LRUCache) (junk : Nat → Nat) (now : Nat)
    (stream : List Nat) :
    (e.loadSnapshot junk now stream).2.capacity = e.capacity := by
  by_cases hv : (readU32 junk { rest := stream, bad := false, junkCtr := 0 }).1 = 1
  · rw [loadSnapshot_version_eq hv, capacity_insertAll, capacity_clear]
  · rw [loadSnapshot_version_ne hv, capacity_clear]

theorem capacity_applyOp (e : LRUCache) (op : Op) :
    (applyOp e op).capacity = e.capacity := by
  cases op with
  | get k now => exact capacity_get e k now
  | put k v now => exact capacity_put e k v now
  | remove k => exact capacity_removeKey e k
  | clear => rfl
  | load junk now stream => exact capacity_loadSnapshot e junk now stream

theorem WF_applyOp {e : LRUCache} (hwf : WF e) (op : Op)
    (hok : OpOk e.capacity op) : WF (applyOp e op) := by
  cases op with
  | get k now => exact WF_get hwf k now
  | put k v now => exact WF_put hwf k v now
  | remove k => exact WF_removeKey hwf k
  | clear => exact WF_clear hwf.2.2
  | load junk now stream => exact WF_loadSnapshot hwf.2.2 junk now stream hok

theorem WF_applyOps {e : LRUCache} (ops : List Op) (hwf : WF e)
    (hok : ∀ op ∈ ops, OpOk e.capacity op) : WF (applyOps ops e) := by
  induction ops generalizing e with
  | nil => exact hwf
  | cons op ops ih =>
    have h1 : applyOps (op :: ops) e = applyOps ops (applyOp e op) := rfl
    rw [h1]
    refine ih (WF_applyOp hwf op (hok op (List.mem_cons_self _ _))) ?_
    intro op' hop'
    rw [capacity_applyOp]
    exact hok op' (List.mem_cons_of_mem _ hop')

theorem capacity_applyOps (ops : List Op) :
    ∀ e : LRUCache, (applyOps ops e).capacity = e.capacity := by
  induction ops with
  | nil => intro e; rfl
  | cons op ops ih =>
    intro e
    have h1 : applyOps (op :: ops) e = applyOps ops (applyOp e op) := rfl
    rw [h1, ih, capacity_applyOp]

theorem encodeRecs_cons (r : Key × Val) (rs : List (Key × Val)) :
    encodeRecs (r :: rs) = encodeRecord r ++ encodeRecs rs := rfl

theorem saveSnapshot_eq (e : LRUCache) :
    e.saveSnapshot =
      encodeU32 1 ++ encodeU32 e.currentSize ++ encodeRecs (recsOf e) := rfl

theorem readU32_encodeU32 (junk : Nat → Nat) (n : Nat) (rest : List Nat)
    (j : Nat) :
    readU32 junk { rest := encodeU32 n ++ rest, bad := false, junkCtr := j } =
      (n % 4294967296, { rest := rest, bad := false, junkCtr := j }) := by
  simp only [readU32, encodeU32, List.cons_append, List.nil_append,
    Bool.false_eq_true, if_false, decodeU32]
  rw [Prod.mk.injEq]
  exact ⟨by omega, rfl⟩

theorem readBytes_exact (l rest : List Nat) (j : Nat) :
    readBytes l.length { rest := l ++ rest, bad := false, junkCtr := j } =
      (l, { rest := rest, bad := false, junkCtr := j }) := by
  have hle : l.length ≤ (l ++ rest).length := by simp
  simp [readBytes, hle]

theorem readRecords_encodeRecord_step (junk : Nat → Nat) (r : Key × Val)
    (h1 : r.1.length < 4294967296) (h2 : r.2.length < 4294967296)
    (tail : List Nat) (j : Nat) (fuel : Nat) :
    readRecords junk (fuel + 1)
        { rest := encodeRecord r ++ tail, bad := false, junkCtr := j } =
      r :: readRecords junk fuel { rest := tail, bad := false, junkCtr := j } := by
  have hk : r.1.length % 4294967296 = r.1.length := Nat.mod_eq_of_lt h1
  have hv : r.2.length % 4294967296 = r.2.length := Nat.mod_eq_of_lt h2
  have hshape : encodeRecord r ++ tail =
      encodeU32 r.1.length ++
        (r.1 ++ (encodeU32 r.2.length ++ (r.2 ++ tail))) := by
    simp [encodeRecord, hk, hv, List.append_assoc]
  rw [readRecords, hshape]
  rw [readU32_encodeU32]
  simp only [hk]
  rw [readBytes_exact]
  rw [readU32_encodeU32]
  simp only [hv]
  rw [readBytes_exact]

/-- Reading more records than are encoded: the encoded prefix comes back
verbatim and the loop keeps consuming the remaining stream. -/
theorem readRecords_encodeRecs_all (junk : Nat → Nat) (rs : List (Key × Val))
    (hb : ∀ r ∈ rs, r.1.length < 4294967296 ∧ r.2.length < 4294967296) :
    ∀ (fuel : Nat), rs.length ≤ fuel → ∀ (tail : List Nat) (j : Nat),
      readRecords junk fuel
          { rest := encodeRecs rs ++ tail, bad := false, junkCtr := j } =
        rs ++ readRecords junk (fuel - rs.length)
          { rest := tail, bad := false, junkCtr := j } := by
  induction rs with
  | nil => intro fuel _ tail j; simp [encodeRecs]
  | cons r rs ih =>
    intro fuel hle tail j
    obtain ⟨f, rfl⟩ : ∃ f, fuel = f + 1 := by
      cases fuel with
      | zero => simp at hle
      | succ f => exact ⟨f, rfl⟩
    have hr := hb r (List.mem_cons_self _ _)
    rw [encodeRecs_cons, List.append_assoc,
      readRecords_encodeRecord_step junk r hr.1 hr.2 _ j f]
    have hle2 : rs.length ≤ f := by simpa using hle
    rw [ih (fun r' hr' => hb r' (List.mem_cons_of_mem _ hr')) f hle2 tail j]
    simp [Nat.succ_sub hle2]

/-- Reading fewer records than are encoded: the loop returns exactly the
first `fuel` records. -/
theorem readRecords_encodeRecs_take (junk : Nat → Nat) :
    ∀ (fuel : Nat) (rs : List (Key × Val)),
      (∀ r ∈ rs, r.1.length < 4294967296 ∧ r.2.length < 4294967296) →
      fuel ≤ rs.length → ∀ (tail : List Nat) (j : Nat),
      readRecords junk fuel
          { rest := encodeRecs rs ++ tail, bad := false, junkCtr := j } =
        rs.take fuel := by
  intro fuel
  induction fuel with
  | zero => intro rs _ _ tail j; simp [readRecords]
  | succ f ih =>
    intro rs hb hle tail j
    cases rs with
    | nil => simp at hle
    | cons r rs =>
      have hr := hb r (List.mem_cons_self _ _)
      rw [encodeRecs_cons, List.append_assoc,
        readRecords_encodeRecord_step junk r hr.1 hr.2 _ j f]
      have hle2 : f ≤ rs.length := by simpa using hle
      rw [ih rs (fun r' hr' => hb r' (List.mem_cons_of_mem _ hr')) hle2 tail j]
      rfl

/-! ## Observable behaviour of `get` on consistent engines -/

theorem get_found_iff {e : LRUCache} (hInv : Inv e) (k : Key) (now : Nat) :
    (e.get k now).1 = true ↔ k ∈ listKeys e := by
  cases hf : mapFind e.index k with
  | none =>
    rw [get_miss now hf]
    simpa using (mapFind_none_iff_notMem_listKeys hInv k).mp hf
  | some id =>
    obtain ⟨n, hmem, hkey⟩ := hInv.index_find k id hf
    rw [get_hit now hInv.ids_nodup hf hmem]
    simpa using hkey ▸ key_mem_listKeys hmem

theorem get_value_eq {e : LRUCache} (hInv : Inv e) {k : Key} {id : Nat}
    {n : Node} (now : Nat) (hmem : (id, n) ∈ e.nodes) (hkey : n.key = k) :
    (e.get k now).2.1 = n.value := by
  have hf : mapFind e.index k = some id := hkey ▸ hInv.nodes_find (id, n) hmem
  rw [get_hit now hInv.ids_nodup hf hmem]

theorem get_found_of_mem_recs {e : LRUCache} (hInv : Inv e) {k : Key} {v : Val}
    (now : Nat) (hmem : (k, v) ∈ recsOf e) :
    (e.get k now).1 = true ∧ (e.get k now).2.1 = v := by
  obtain ⟨p, hp, hpe⟩ := List.mem_map.mp hmem
  have hk : p.2.key = k := congrArg Prod.fst hpe
  have hv : p.2.value = v := congrArg Prod.snd hpe
  have hmem2 : (p.1, p.2) ∈ e.nodes := by simpa using hp
  constructor
  · rw [get_found_iff hInv k now]
    exact hk ▸ key_mem_listKeys hp
  · rw [get_value_eq hInv now hmem2 hk]
    exact hv

/-! ## The LRU closed form of `put` on a fresh key -/

theorem take_append_take {α : Type} (A B : List α) (c : Nat) :
    (A ++ B.take c).take c = (A ++ B).take c := by
  rw [List.take_append_eq_append_take, List.take_append_eq_append_take,
    List.take_take]
  have : min (c - A.length) c = c - A.length :=
    Nat.min_eq_left (Nat.sub_le _ _)
  rw [this]

theorem listKeys_put_new {e : LRUCache} (hwf : WF e) {k : Key} (v : Val)
    (now : Nat) (habs : mapFind e.index k = none) :
    listKeys (e.put k v now) = (k :: listKeys e).take e.capacity := by
  obtain ⟨hInv, hle, hpos⟩ := hwf
  have hlen : (listKeys e).length = e.currentSize := by
    simp [listKeys, hInv.size_eq]
  by_cases hc : e.capacity ≤ e.currentSize
  · have hsz : e.currentSize = e.capacity := Nat.le_antisymm hle hc
    have hne : e.nodes ≠ [] := by
      intro h0
      rw [hInv.size_eq, h0] at hsz
      simp at hsz
      omega
    obtain ⟨p, hlast⟩ := Option.ne_none_iff_exists'.mp
      (mt List.getLast?_eq_none_iff.mp hne)
    rw [put_new_evict v now habs hc hlast]
    have hdrop : removeId e.nodes p.1 = e.nodes.dropLast :=
      removeId_eq_dropLast hInv.ids_nodup hlast
    have hlhs : listKeys { e with
        nodes := (e.nextId, Node.mk k v now 1) :: removeId e.nodes p.1,
        index := mapInsert (mapErase e.index p.2.key) k e.nextId,
        nextId := e.nextId + 1,
        currentSize := e.currentSize - 1 + 1 } =
        k :: (listKeys e).dropLast := by
      simp [listKeys, hdrop, List.map_dropLast]
    rw [hlhs]
    have hsz2 : (k :: listKeys e).length = e.capacity + 1 := by
      simp [hlen, hsz]
    rw [List.dropLast_eq_take, List.take_succ_cons.symm]
    · congr 1
      omega
  · have hlt : e.currentSize < e.capacity := Nat.not_le.mp hc
    rw [put_new_noevict v now habs hlt]
    have hlhs : listKeys { e with
        nodes := (e.nextId, Node.mk k v now 1) :: e.nodes,
        index := mapInsert e.index k e.nextId,
        nextId := e.nextId + 1,
        currentSize := e.currentSize + 1 } = k :: listKeys e := by
      simp [listKeys]
    rw [hlhs, List.take_of_length_le]
    simp [hlen]
    omega

theorem putSeq_eq_applyOps (ps : List (Key × Val)) (now : Nat)
    (e : LRUCache) :
    putSeq ps now e = applyOps (ps.map (fun p => Op.put p.1 p.2 now)) e := by
  rw [putSeq, applyOps, List.foldl_map]
  rfl

theorem WF_putSeq {e : LRUCache} (hwf : WF e) (ps : List (Key × Val))
    (now : Nat) : WF (putSeq ps now e) := by
  rw [putSeq_eq_applyOps]
  refine WF_applyOps _ hwf ?_
  intro op hop
  obtain ⟨p, _, rfl⟩ := List.mem_map.mp hop
  trivial

theorem listKeys_putSeq (now : Nat) (ps : List (Key × Val)) :
    ∀ e : LRUCache, WF e → (ps.map Prod.fst).Nodup →
      (∀ p ∈ ps, p.1 ∉ listKeys e) →
      listKeys (putSeq ps now e) =
        ((ps.map Prod.fst).reverse ++ listKeys e).take e.capacity := by
  induction ps with
  | nil =>
    intro e hwf _ _
    have hlen : (listKeys e).length = e.currentSize := by
      simp [listKeys, hwf.1.size_eq]
    simp [putSeq, List.take_of_length_le, hlen.le.trans hwf.2.1, hlen, hwf.2.1]
  | cons p ps ih =>
    intro e hwf hnd habs
    rw [List.map_cons, List.nodup_cons] at hnd
    have habs1 : mapFind e.index p.1 = none :=
      (mapFind_none_iff_notMem_listKeys hwf.1 p.1).mpr
        (habs p (List.mem_cons_self _ _))
    have hstep : putSeq (p :: ps) now e = putSeq ps now (e.put p.1 p.2 now) := rfl
    rw [hstep]
    have hwf1 : WF (e.put p.1 p.2 now) := WF_put hwf p.1 p.2 now
    have hkeys1 : listKeys (e.put p.1 p.2 now) =
        (p.1 :: listKeys e).take e.capacity := listKeys_put_new hwf p.2 now habs1
    have habs2 : ∀ q ∈ ps, q.1 ∉ listKeys (e.put p.1 p.2 now) := by
      intro q hq hmem
      rw [hkeys1] at hmem
      have hmem2 : q.1 ∈ p.1 :: listKeys e := List.take_subset _ _ hmem
      rcases List.mem_cons.mp hmem2 with h1 | h1
      · exact hnd.1 (h1 ▸ List.mem_map_of_mem Prod.fst hq)
      · exact habs q (List.mem_cons_of_mem _ hq) h1
    have hcap1 : (e.put p.1 p.2 now).capacity = e.capacity := capacity_put e p.1 p.2 now
    rw [ih _ hwf1 hnd.2 habs2, hkeys1, hcap1]
    rw [take_append_take]
    congr 1
    simp [List.append_assoc]

/-- Keys inserted by a `putSeq` of pairwise-distinct keys into a fresh
engine: the most recent `capacity` keys, most recent first. -/
theorem listKeys_putSeq_fresh {C : Nat} (hC : 0 < C) (ps : List (Key × Val))
    (now : Nat) (hnd : (ps.map Prod.fst).Nodup) :
    listKeys (putSeq ps now (mkCache C)) =
      (ps.map Prod.fst).reverse.take C := by
  have h := listKeys_putSeq now ps (mkCache C) (WF_mkCache hC) hnd
    (by intro p _ hc; simp [listKeys, mkCache] at hc)
  simpa [listKeys, mkCache] using h

theorem mem_drop_iff_of_nodup {ks : List Key} (hnd : ks.Nodup) {i m : Nat}
    (hi : i < ks.length) :
    ks.get ⟨i, hi⟩ ∈ ks.drop m ↔ m ≤ i := by
  constructor
  · intro hmem
    by_contra hc
    have hlt : i < m := Nat.not_le.mp hc
    have htk : ks.get ⟨i, hi⟩ ∈ ks.take m := by
      have h1 : i < (ks.take m).length := by
        simp [List.length_take]
        omega
      have h2 : (ks.take m).get ⟨i, h1⟩ = ks.get ⟨i, hi⟩ := by
        simp [List.get_take]
      exact h2 ▸ List.get_mem _ _ _
    have hsplit := List.take_append_drop m ks
    have hnd2 : (ks.take m ++ ks.drop m).Nodup := hsplit.symm ▸ hnd
    have hdisj := (List.nodup_append.mp hnd2).2.2
    exact hdisj htk hmem
  · intro hm
    have h1 : m + (i - m) < ks.length := by omega
    have h2 : i - m < (ks.drop m).length := by
      simp [List.length_drop]
      omega
    have h3 : (ks.drop m).get ⟨i - m, h2⟩ = ks.get ⟨m + (i - m), h1⟩ := by
      simp [List.get_drop]
    have h4 : ks.get ⟨m + (i - m), h1⟩ = ks.get ⟨i, hi⟩ := by
      congr 1
      simp
      omega
    exact h4 ▸ h3 ▸ List.get_mem _ _ _

/-! ## Loading well-formed prefixes -/

theorem recsOf_map_fst (e : LRUCache) :
    (recsOf e).map Prod.fst = listKeys e := by
  simp [recsOf, listKeys]

theorem loadRecs_wellformed (junk : Nat → Nat) (cap : Nat) (count : Nat)
    (rs : List (Key × Val)) (tail : List Nat)
    (hcount : count < 4294967296)
    (hb : ∀ r ∈ rs, r.1.length < 4294967296 ∧ r.2.length < 4294967296)
    (hlen : min count cap ≤ rs.length) :
    loadRecs junk cap (encodeU32 1 ++ encodeU32 count ++ encodeRecs rs ++ tail) =
      rs.take (min count cap) := by
  rw [loadRecs]
  simp only [List.append_assoc]
  rw [readU32_encodeU32]
  simp only
  rw [readU32_encodeU32]
  simp only [Nat.mod_eq_of_lt hcount]
  rw [if_neg (by simp)]
  exact readRecords_encodeRecs_take junk (min count cap) rs hb hlen tail 0

theorem loadRecs_overshoot (junk : Nat → Nat) (cap : Nat) (count : Nat)
    (rs : List (Key × Val)) (tail : List Nat)
    (hcount : count < 4294967296)
    (hb : ∀ r ∈ rs, r.1.length < 4294967296 ∧ r.2.length < 4294967296)
    (hlen : rs.length ≤ min count cap) :
    loadRecs junk cap (encodeU32 1 ++ encodeU32 count ++ encodeRecs rs ++ tail) =
      rs ++ readRecords junk (min count cap - rs.length)
        { rest := tail, bad := false, junkCtr := 0 } := by
  rw [loadRecs]
  simp only [List.append_assoc]
  rw [readU32_encodeU32]
  simp only
  rw [readU32_encodeU32]
  simp only [Nat.mod_eq_of_lt hcount]
  rw [if_neg (by simp)]
  exact readRecords_encodeRecs_all junk rs hb (min count cap) hlen tail 0

theorem loadSnapshot_header_version1 (e : LRUCache) (junk : Nat → Nat)
    (now : Nat) (count : Nat) (body : List Nat) :
    e.loadSnapshot junk now (encodeU32 1 ++ encodeU32 count ++ body) =
      (true, insertAll now
        (loadRecs junk e.capacity (encodeU32 1 ++ encodeU32 count ++ body))
        e.clear) := by
  apply loadSnapshot_version_eq
  simp only [List.append_assoc]
  rw [readU32_encodeU32]

/-! ## Claim C10: a missed `get` is a pure observer -/

/-- C10: for every key `k` absent from the cache, `get(k)` returns
`found = false` and leaves the entire engine state unchanged — no node is
moved or created, `current_size` and the index are untouched, and no
entry's `last_accessed` or `access_count` changes (the returned state is
equal to the input state). -/
theorem C10_get_absent_frame (e : LRUCache) (hInv : Inv e) (k : Key)
    (now : Nat) (habs : k ∉ listKeys e) : e.get k now = (false, [], e) :=
  get_miss now ((mapFind_none_iff_notMem_listKeys hInv k).mpr habs)

theorem C10_witness :
    Inv ((mkCache 2).put [1] [5] 0) ∧
    [2] ∉ listKeys ((mkCache 2).put [1] [5] 0) ∧
    ((mkCache 2).put [1] [5] 0).get [2] 7 =
      (false, [], (mkCache 2).put [1] [5] 0) :=
  ⟨(WF_put (WF_mkCache (by decide)) [1] [5] 0).1, by decide,
   C10_get_absent_frame _ (WF_put (WF_mkCache (by decide)) [1] [5] 0).1 [2] 7
     (by decide)⟩

/-! ## Claim C6: version mismatch loses the pre-load contents -/

/-- C6: for every snapshot stream whose header version field is not `1`,
`load_snapshot` returns `false` and leaves the engine empty — the engine
is cleared before the version is validated, so the pre-load contents are
lost. -/
theorem C6_version_mismatch (e : LRUCache) (junk : Nat → Nat) (now : Nat)
    (b0 b1 b2 b3 : Nat) (rest : List Nat)
    (hv : decodeU32 b0 b1 b2 b3 ≠ 1) :
    e.loadSnapshot junk now (b0 :: b1 :: b2 :: b3 :: rest) = (false, e.clear) ∧
    (e.loadSnapshot junk now (b0 :: b1 :: b2 :: b3 :: rest)).2.nodes = [] ∧
    (e.loadSnapshot junk now (b0 :: b1 :: b2 :: b3 :: rest)).2.index = [] ∧
    (e.loadSnapshot junk now (b0 :: b1 :: b2 :: b3 :: rest)).2.currentSize = 0 := by
  have hv2 : (readU32 junk
      { rest := b0 :: b1 :: b2 :: b3 :: rest, bad := false, junkCtr := 0 }).1 ≠ 1 := by
    simpa [readU32] using hv
  rw [loadSnapshot_version_ne hv2]
  exact ⟨rfl, rfl, rfl, rfl⟩

theorem C6_witness :
    decodeU32 2 0 0 0 ≠ 1 ∧
    ((mkCache 3).put [9] [9] 0).loadSnapshot junk0 5 [2, 0, 0, 0] =
      (false, ((mkCache 3).put [9] [9] 0).clear) ∧
    (((mkCache 3).put [9] [9] 0).loadSnapshot junk0 5 [2, 0, 0, 0]).2.nodes = [] :=
  ⟨by decide,
   (C6_version_mismatch _ junk0 5 2 0 0 0 [] (by decide)).1,
   (C6_version_mismatch _ junk0 5 2 0 0 0 [] (by decide)).2.1⟩

/-! ## Claim C8 (amended): façade metric accounting -/

/-- C8 (amended): `get`, `put` and `remove` each increment
`total_operations` by exactly one before delegating, and after a `get`
exactly one of `cache_hits` / `cache_misses` is incremented according to
the outcome; `clear`, however, does not touch `total_operations` — it
resets all metrics to their initial values. -/
theorem C8_facade_metrics (s : KVStore) (k : Key) (v : Val) (now : Nat) :
    ((s.get k now).2.2.metrics.totalOperations =
        s.metrics.totalOperations + 1 ∧
      (s.get k now).2.2.metrics.cacheHits =
        s.metrics.cacheHits + (if (s.get k now).1 then 1 else 0) ∧
      (s.get k now).2.2.metrics.cacheMisses =
        s.metrics.cacheMisses + (if (s.get k now).1 then 0 else 1)) ∧
    (s.put k v now).metrics.totalOperations = s.metrics.totalOperations + 1 ∧
    (s.removeKey k).2.metrics.totalOperations =
      s.metrics.totalOperations + 1 ∧
    s.clear.metrics = Metrics.init := by
  refine ⟨⟨?_, ?_, ?_⟩, ?_, rfl, rfl⟩
  · cases hr : (s.cache.get k now).1 <;> simp [KVStore.get, hr]
  · cases hr : (s.cache.get k now).1 <;> simp [KVStore.get, hr]
  · cases hr : (s.cache.get k now).1 <;> simp [KVStore.get, hr]
  · by_cases hc : (s.cache.put k v now).size < s.cache.size + 1 <;>
      simp [KVStore.put, hc]

/-- C8 counterexample: on a fresh store, `clear` leaves
`total_operations` at 0 instead of incrementing it to 1. -/
theorem C8_counterexample :
    ¬ ((mkStore 2).clear.metrics.totalOperations =
        (mkStore 2).metrics.totalOperations + 1) := by decide

/-! ## Claim C5: overwriting `put` -/

theorem head_listKeys_put (e : LRUCache) (hInv : Inv e) (k : Key) (v : Val)
    (now : Nat) : (listKeys (e.put k v now)).head? = some k := by
  cases hf : mapFind e.index k with
  | some id =>
    obtain ⟨n, hmem, hkey⟩ := hInv.index_find k id hf
    rw [put_update v now hInv.ids_nodup hf hmem]
    simp [listKeys, hkey]
  | none =>
    by_cases hc : e.capacity ≤ e.currentSize
    · cases hlast : e.nodes.getLast? with
      | some p =>
        rw [put_new_evict v now hf hc hlast]
        simp [listKeys]
      | none =>
        simp [LRUCache.put, hf, hc, hlast, listKeys]
    · rw [put_new_noevict v now hf (Nat.not_le.mp hc)]
      simp [listKeys]

theorem mem_of_head?_some {α : Type} {l : List α} {a : α}
    (h : l.head? = some a) : a ∈ l := by
  cases l with
  | nil => simp at h
  | cons b t =>
    rw [List.head?_cons, Option.some.injEq] at h
    exact h ▸ List.mem_cons_self _ _

/-- C5: after `put(k,v₁)` then `put(k,v₂)`, a `get(k)` returns
`(true, v₂)`; the second `put` overwrites the value, splices the node to
the head, evicts nothing (the key set is a permutation of what it was)
and leaves the size unchanged — for every consistent starting engine,
including one already filled to capacity. -/
theorem C5_put_overwrite (e : LRUCache) (hwf : WF e) (k : Key) (v1 v2 : Val)
    (t1 t2 t3 : Nat) :
    (((e.put k v1 t1).put k v2 t2).get k t3).1 = true ∧
    (((e.put k v1 t1).put k v2 t2).get k t3).2.1 = v2 ∧
    ((e.put k v1 t1).put k v2 t2).currentSize = (e.put k v1 t1).currentSize ∧
    (listKeys ((e.put k v1 t1).put k v2 t2)).Perm (listKeys (e.put k v1 t1)) ∧
    (listKeys ((e.put k v1 t1).put k v2 t2)).head? = some k := by
  have hwf1 : WF (e.put k v1 t1) := WF_put hwf k v1 t1
  have hwf2 : WF ((e.put k v1 t1).put k v2 t2) := WF_put hwf1 k v2 t2
  have hmemk : k ∈ listKeys (e.put k v1 t1) :=
    mem_of_head?_some (head_listKeys_put e hwf.1 k v1 t1)
  have hf2 : mapFind (e.put k v1 t1).index k ≠ none := fun hc =>
    (mapFind_none_iff_notMem_listKeys hwf1.1 k).mp hc hmemk
  obtain ⟨id, hid⟩ := Option.ne_none_iff_exists'.mp hf2
  obtain ⟨n, hmem, hkey⟩ := hwf1.1.index_find k id hid
  have hsh := put_update v2 t2 hwf1.1.ids_nodup hid hmem
  have hrec : (k, v2) ∈ recsOf ((e.put k v1 t1).put k v2 t2) := by
    rw [hsh]
    simp [recsOf, hkey]
  have hg := get_found_of_mem_recs hwf2.1 t3 hrec
  refine ⟨hg.1, hg.2, ?_, ?_, ?_⟩
  · rw [hsh]
  · rw [hsh]
    have hperm : (e.put k v1 t1).nodes.Perm
        ((id, n) :: removeId (e.put k v1 t1).nodes id) :=
      perm_cons_removeId hwf1.1.ids_nodup hmem
    have hpermK := hperm.map (fun q => q.2.key)
    simp only [listKeys, List.map_cons]
    exact (List.Perm.cons _ (List.Perm.refl _)).trans hpermK.symm
  · rw [hsh]
    simp [listKeys, hkey]

theorem C5_witness :
    WF ((mkCache 1).put [4] [4] 0) ∧
    (((((mkCache 1).put [4] [4] 0).put [3] [7] 1).put [3] [8] 2).get [3] 3).1
        = true ∧
    (((((mkCache 1).put [4] [4] 0).put [3] [7] 1).put [3] [8] 2).get [3] 3).2.1
        = [8] ∧
    ((((mkCache 1).put [4] [4] 0).put [3] [7] 1).put [3] [8] 2).currentSize
        = (((mkCache 1).put [4] [4] 0).put [3] [7] 1).currentSize :=
  ⟨WF_put (WF_mkCache (by decide)) [4] [4] 0,
   (C5_put_overwrite _ (WF_put (WF_mkCache (by decide)) [4] [4] 0)
      [3] [7] [8] 1 2 3).1,
   (C5_put_overwrite _ (WF_put (WF_mkCache (by decide)) [4] [4] 0)
      [3] [7] [8] 1 2 3).2.1,
   (C5_put_overwrite _ (WF_put (WF_mkCache (by decide)) [4] [4] 0)
      [3] [7] [8] 1 2 3).2.2.1⟩

/-! ## Claim C2: eviction order under distinct-key insertion -/

/-- C2: for capacity `C > 0` and a sequence of `put`s of `n > C`
pairwise-distinct keys into a fresh engine with no intervening reads, a
subsequent `get` of the `i`-th key (0-based index `i`) misses exactly
when it is among the `n − C` oldest insertions, i.e.
`found = false ↔ i + 1 ≤ n − C`; the `C` newest survive. -/
theorem C2_lru_eviction (C : Nat) (hC : 0 < C) (ps : List (Key × Val))
    (hnd : (ps.map Prod.fst).Nodup) (hn : C < ps.length)
    (now now2 : Nat) (i : Nat) (hi : i < ps.length) :
    ((putSeq ps now (mkCache C)).get (ps.get ⟨i, hi⟩).1 now2).1 = false ↔
      i + 1 ≤ ps.length - C := by
  have hwfE : WF (putSeq ps now (mkCache C)) := WF_putSeq (WF_mkCache hC) ps now
  have hkeys := listKeys_putSeq_fresh hC ps now hnd
  have hik : i < (ps.map Prod.fst).length := by simpa using hi
  have hgetk : (ps.map Prod.fst).get ⟨i, hik⟩ = (ps.get ⟨i, hi⟩).1 := by
    simp
  have hiff := get_found_iff hwfE.1 (ps.get ⟨i, hi⟩).1 now2
  have hmem : (ps.get ⟨i, hi⟩).1 ∈ listKeys (putSeq ps now (mkCache C)) ↔
      ps.length - C ≤ i := by
    rw [hkeys, List.take_reverse, List.mem_reverse, ← hgetk,
      mem_drop_iff_of_nodup hnd hik]
    simp
  constructor
  · intro hfalse
    have hnt : ¬ ((putSeq ps now (mkCache C)).get (ps.get ⟨i, hi⟩).1 now2).1
        = true := by
      rw [Bool.not_eq_true]
      exact hfalse
    have := fun hm => hnt (hiff.mpr hm)
    have hnle : ¬ ps.length - C ≤ i := fun hle => this (hmem.mpr hle)
    omega
  · intro hle
    cases hb : ((putSeq ps now (mkCache C)).get (ps.get ⟨i, hi⟩).1 now2).1 with
    | false => rfl
    | true =>
      have hm := hmem.mp (hiff.mp hb)
      omega

theorem C2_witness :
    0 < 2 ∧
    ([([1], [10]), ([2], [20]), ([3], [30])].map
        (Prod.fst (α := Key) (β := Val))).Nodup ∧
    2 < ([([1], [10]), ([2], [20]), ([3], [30])] : List (Key × Val)).length ∧
    (((putSeq [([1], [10]), ([2], [20]), ([3], [30])] 0 (mkCache 2)).get
        (([([1], [10]), ([2], [20]), ([3], [30])] : List (Key × Val)).get
          ⟨0, by decide⟩).1 9).1 = false ↔ 0 + 1 ≤ 3 - 2) :=
  ⟨by decide, by decide, by decide,
   C2_lru_eviction 2 (by decide) [([1], [10]), ([2], [20]), ([3], [30])]
     (by decide) (by decide) 0 9 0 (by decide)⟩

/-! ## Claim C1 (corrected): truncated streams load "successfully" -/

/-- C1 counterexample: `truncStream` ends inside a record (appending three
value bytes would complete it), yet `load_snapshot` returns `true`, not
`false` — the record loop never checks the stream state. -/
theorem C1_counterexample :
    streamComplete truncStream = false ∧
    streamComplete (truncStream ++ [100, 100, 100]) = true ∧
    ((mkCache 2).loadSnapshot junk0 0 truncStream).1 = true := by
  exact ⟨by decide, by decide, by decide⟩

/-- C1 (amended): for every stream with a version-1 header that announces
`count` records but carries only a shorter prefix of complete records
followed by arbitrary (e.g. truncated) bytes, `load_snapshot` returns
`true` — not `false` — and the records fully read before the truncation
point remain inserted in the engine. -/
theorem C1_truncated_load (e : LRUCache) (junk : Nat → Nat) (now : Nat)
    (count : Nat) (rs : List (Key × Val)) (tail : List Nat)
    (hcount : count < 4294967296)
    (hb : ∀ r ∈ rs, r.1.length < 4294967296 ∧ r.2.length < 4294967296)
    (hlt : rs.length ≤ min count e.capacity) :
    (e.loadSnapshot junk now
        (encodeU32 1 ++ encodeU32 count ++ encodeRecs rs ++ tail)).1 = true ∧
    ∀ r ∈ rs, r ∈ recsOf (e.loadSnapshot junk now
        (encodeU32 1 ++ encodeU32 count ++ encodeRecs rs ++ tail)).2 := by
  have hshape : encodeU32 1 ++ encodeU32 count ++ encodeRecs rs ++ tail =
      encodeU32 1 ++ encodeU32 count ++ (encodeRecs rs ++ tail) := by
    simp [List.append_assoc]
  rw [hshape]
  have hload := loadSnapshot_header_version1 e junk now count (encodeRecs rs ++ tail)
  have hrecs := loadRecs_overshoot junk e.capacity count rs tail hcount hb hlt
  rw [hshape] at hrecs
  rw [hload]
  constructor
  · rfl
  · intro r hr
    simp only
    rw [hrecs, recsOf_insertAll]
    simp only [List.mem_append, List.mem_reverse]
    exact Or.inl (Or.inl hr)

theorem C1_witness :
    (2 : Nat) < 4294967296 ∧
    ([([1], [7])] : List (Key × Val)).length ≤ min 2 (mkCache 3).capacity ∧
    ((mkCache 3).loadSnapshot junk0 4
        (encodeU32 1 ++ encodeU32 2 ++ encodeRecs [([1], [7])] ++ [5])).1 = true ∧
    ∀ r ∈ ([([1], [7])] : List (Key × Val)),
      r ∈ recsOf ((mkCache 3).loadSnapshot junk0 4
        (encodeU32 1 ++ encodeU32 2 ++ encodeRecs [([1], [7])] ++ [5])).2 :=
  ⟨by decide, by decide,
   (C1_truncated_load (mkCache 3) junk0 4 2 [([1], [7])] [5]
      (by decide) (by decide) (by decide)).1,
   (C1_truncated_load (mkCache 3) junk0 4 2 [([1], [7])] [5]
      (by decide) (by decide) (by decide)).2⟩

/-! ## Claim C3 (corrected): the size invariant -/

/-- C3 counterexample: loading a complete version-1 stream that repeats
the key `[1]` leaves the index with one entry but the recency list with
two nodes and `current_size = 2`: the claimed invariant
"index size = list length = current_size" fails after this `load`. -/
theorem C3_counterexample :
    0 < 2 ∧
    (applyOps [Op.load junk0 0 dupStream] (mkCache 2)).index.length = 1 ∧
    (applyOps [Op.load junk0 0 dupStream] (mkCache 2)).nodes.length = 2 ∧
    (applyOps [Op.load junk0 0 dupStream] (mkCache 2)).currentSize = 2 := by
  exact ⟨by decide, by decide, by decide, by decide⟩

/-- C3 (amended): for every capacity `C > 0` and every sequence of
get/put/remove/clear/load operations in which each loaded stream
materializes records with pairwise-distinct keys, after each operation
the index size, the recency-list length and `current_size` agree and
`current_size ≤ C`. -/
theorem C3_invariant (C : Nat) (hC : 0 < C) (ops : List Op)
    (hok : ∀ op ∈ ops, OpOk C op) :
    (applyOps ops (mkCache C)).index.length =
      (applyOps ops (mkCache C)).nodes.length ∧
    (applyOps ops (mkCache C)).currentSize =
      (applyOps ops (mkCache C)).nodes.length ∧
    (applyOps ops (mkCache C)).currentSize ≤ C := by
  have hwf := WF_applyOps ops (WF_mkCache hC) hok
  have hcap := capacity_applyOps ops (mkCache C)
  have hle := hwf.2.1
  rw [hcap] at hle
  exact ⟨hwf.1.index_len, hwf.1.size_eq, hle⟩

theorem C3_witness :
    0 < 2 ∧
    (applyOps c3ops (mkCache 2)).index.length =
      (applyOps c3ops (mkCache 2)).nodes.length ∧
    (applyOps c3ops (mkCache 2)).currentSize =
      (applyOps c3ops (mkCache 2)).nodes.length ∧
    (applyOps c3ops (mkCache 2)).currentSize ≤ 2 :=
  ⟨by decide,
   C3_invariant 2 (by decide) c3ops (by
     intro op hop
     simp only [c3ops, List.mem_cons, List.not_mem_nil, or_false] at hop
     rcases hop with rfl | rfl | rfl | rfl | rfl
     · trivial
     · trivial
     · trivial
     · trivial
     · exact (by decide : ((loadRecs junk0 2 truncStream).map Prod.fst).Nodup))⟩

/-! ## Claim C7: count beyond capacity -/

/-- C7: loading a well-formed version-1 stream whose `count` exceeds the
engine's capacity `C` materializes exactly the first `C` records in
stream order (the head of the recency list being the last one loaded),
silently ignores the remaining records, and returns `true`. -/
theorem C7_count_exceeds_capacity (e : LRUCache) (junk : Nat → Nat)
    (now : Nat) (rs : List (Key × Val))
    (hb : ∀ r ∈ rs, r.1.length < 4294967296 ∧ r.2.length < 4294967296)
    (hcount : rs.length < 4294967296) (hcap : e.capacity < rs.length) :
    (e.loadSnapshot junk now
        (encodeU32 1 ++ encodeU32 rs.length ++ encodeRecs rs)).1 = true ∧
    recsOf (e.loadSnapshot junk now
        (encodeU32 1 ++ encodeU32 rs.length ++ encodeRecs rs)).2 =
      (rs.take e.capacity).reverse := by
  have hmin : min rs.length e.capacity = e.capacity :=
    Nat.min_eq_right (Nat.le_of_lt hcap)
  have hload := loadSnapshot_header_version1 e junk now rs.length (encodeRecs rs)
  have hrecs := loadRecs_wellformed junk e.capacity rs.length rs [] hcount hb
    (by rw [hmin]; exact Nat.le_of_lt hcap)
  rw [List.append_nil] at hrecs
  rw [hload]
  refine ⟨rfl, ?_⟩
  simp only
  rw [hrecs, hmin, recsOf_insertAll]
  simp [recsOf, LRUCache.clear]

theorem C7_witness :
    (mkCache 1).capacity <
      ([([1], [7]), ([2], [8])] : List (Key × Val)).length ∧
    ((mkCache 1).loadSnapshot junk0 0
        (encodeU32 1 ++ encodeU32 2 ++
          encodeRecs [([1], [7]), ([2], [8])])).1 = true ∧
    recsOf ((mkCache 1).loadSnapshot junk0 0
        (encodeU32 1 ++ encodeU32 2 ++
          encodeRecs [([1], [7]), ([2], [8])])).2 =
      (([([1], [7]), ([2], [8])] : List (Key × Val)).take
        (mkCache 1).capacity).reverse :=
  ⟨by decide,
   (C7_count_exceeds_capacity (mkCache 1) junk0 0 [([1], [7]), ([2], [8])]
      (by decide) (by decide) (by decide)).1,
   (C7_count_exceeds_capacity (mkCache 1) junk0 0 [([1], [7]), ([2], [8])]
      (by decide) (by decide) (by decide)).2⟩

/-! ## Claim C4: save/load round trip -/

/-- C4: saving a consistent engine `E` and loading the snapshot into a
fresh engine of the same capacity succeeds, and membership is preserved:
every `get` agrees on `found` between the two engines, and on a hit
returns the same value (per-entry timestamps and access counters are not
compared — they are not serialized). -/
theorem C4_snapshot_roundtrip (e : LRUCache) (hwf : WF e) (junk : Nat → Nat)
    (now now1 now2 : Nat) (hsz : e.currentSize < 4294967296)
    (hb : ∀ p ∈ e.nodes,
      p.2.key.length < 4294967296 ∧ p.2.value.length < 4294967296) :
    ((mkCache e.capacity).loadSnapshot junk now e.saveSnapshot).1 = true ∧
    ∀ k : Key,
      ((((mkCache e.capacity).loadSnapshot junk now e.saveSnapshot).2.get
          k now1).1 = (e.get k now2).1) ∧
      ((e.get k now2).1 = true →
        (((mkCache e.capacity).loadSnapshot junk now e.saveSnapshot).2.get
          k now1).2.1 = (e.get k now2).2.1) := by
  have hb' : ∀ r ∈ recsOf e,
      r.1.length < 4294967296 ∧ r.2.length < 4294967296 := by
    intro r hr
    obtain ⟨p, hp, rfl⟩ := List.mem_map.mp hr
    exact hb p hp
  have hlen : (recsOf e).length = e.currentSize := by
    simp [recsOf, hwf.1.size_eq]
  have hmin : min e.currentSize (mkCache e.capacity).capacity
      = e.currentSize := Nat.min_eq_left hwf.2.1
  have hrecs := loadRecs_wellformed junk (mkCache e.capacity).capacity
    e.currentSize (recsOf e) [] hsz hb' (by rw [hmin, ← hlen])
  rw [List.append_nil] at hrecs
  rw [hmin] at hrecs
  have htake : (recsOf e).take e.currentSize = recsOf e := by
    rw [← hlen]
    exact List.take_length _
  rw [htake] at hrecs
  have hload := loadSnapshot_header_version1 (mkCache e.capacity) junk now
    e.currentSize (encodeRecs (recsOf e))
  have hstream : (mkCache e.capacity).loadSnapshot junk now e.saveSnapshot =
      (true, insertAll now (recsOf e) (mkCache e.capacity).clear) := by
    rw [saveSnapshot_eq, hload, hrecs]
  have hnd : ((loadRecs junk (mkCache e.capacity).capacity
      e.saveSnapshot).map Prod.fst).Nodup := by
    rw [saveSnapshot_eq, hrecs, recsOf_map_fst]
    exact hwf.1.keys_nodup
  have hwfL : WF ((mkCache e.capacity).loadSnapshot junk now e.saveSnapshot).2 :=
    WF_loadSnapshot (e := mkCache e.capacity) hwf.2.2 junk now
      e.saveSnapshot hnd
  have hrecsL : recsOf ((mkCache e.capacity).loadSnapshot junk now
      e.saveSnapshot).2 = (recsOf e).reverse := by
    rw [hstream]
    simp only
    rw [recsOf_insertAll]
    simp [recsOf, LRUCache.clear, mkCache]
  have hkeysL : listKeys ((mkCache e.capacity).loadSnapshot junk now
      e.saveSnapshot).2 = (listKeys e).reverse := by
    rw [← recsOf_map_fst, hrecsL, List.map_reverse, recsOf_map_fst]
  refine ⟨by rw [hstream], ?_⟩
  intro k
  have h1 := get_found_iff hwfL.1 k now1
  have h2 := get_found_iff hwf.1 k now2
  have hmemiff : k ∈ listKeys ((mkCache e.capacity).loadSnapshot junk now
      e.saveSnapshot).2 ↔ k ∈ listKeys e := by
    rw [hkeysL, List.mem_reverse]
  constructor
  · rw [Bool.eq_iff_iff, h1, h2]
    exact hmemiff
  · intro hfound
    have hmemE : k ∈ listKeys e := h2.mp hfound
    obtain ⟨p, hp, hpk⟩ := List.mem_map.mp hmemE
    have hp2 : (p.1, p.2) ∈ e.nodes := by simpa using hp
    have hvalE : (e.get k now2).2.1 = p.2.value :=
      get_value_eq hwf.1 now2 hp2 hpk
    have hrmem : (k, p.2.value) ∈ recsOf ((mkCache e.capacity).loadSnapshot
        junk now e.saveSnapshot).2 := by
      rw [hrecsL, List.mem_reverse]
      exact List.mem_map.mpr ⟨p, hp, by rw [hpk]⟩
    have hvalL := (get_found_of_mem_recs hwfL.1 now1 hrmem).2
    rw [hvalL, hvalE]

theorem C4_witness :
    WF rtEngine ∧
    ((mkCache rtEngine.capacity).loadSnapshot junk0 3
        rtEngine.saveSnapshot).1 = true ∧
    (((mkCache rtEngine.capacity).loadSnapshot junk0 3
        rtEngine.saveSnapshot).2.get [1] 5).1 = (rtEngine.get [1] 6).1 ∧
    (((mkCache rtEngine.capacity).loadSnapshot junk0 3
        rtEngine.saveSnapshot).2.get [1] 5).2.1 = (rtEngine.get [1] 6).2.1 := by
  have hwf : WF rtEngine :=
    WF_put (WF_put (WF_mkCache (by decide)) [1] [7] 0) [2] [8] 1
  have h := C4_snapshot_roundtrip rtEngine hwf junk0 3 5 6 (by decide) (by decide)
  exact ⟨hwf, h.1, (h.2 [1]).1, (h.2 [1]).2 (by decide)⟩

end KVS
